import Mathlib

/-
Shallow embedding of the chatbot_web RAG pipeline.

The repository holds three JavaScript variants of the same pipeline:
`src/index.js` (the current entry file, puppeteer-based scraper) and two
earlier drafts `src/unnamed/part_000` (axios/cheerio scraper, per-chunk ids)
and `src/unnamed/part_001` (superseded single-id draft).  Definitions below
are translated from `src/index.js`, with a `Part000` namespace for the places
where `src/unnamed/part_000` differs (its guarded `chunkText`, its scraper).

Strings are modelled as Lean `String` / `List Char`.  The JavaScript string
operations used by the source (`split(/\s+/)`, `replace(/\s+/g, " ")`,
`trim()`, `Array.prototype.join(" ")`, `[...new Set(xs)]`, truthiness
filtering) are modelled character by character.  External collaborators
(page fetch/DOM extraction, the embedding API, the vector store, the
generative model) are parameters of the model gathered in `Env`; the vector
store's upsert-by-id contract is modelled from the spec (section 6) since
the chromadb client is not part of this repository.
-/

/-- JS regex whitespace class membership, for the characters relevant here
(space, tab, newline, carriage return, vertical tab, form feed). -/
def isWs (c : Char) : Bool :=
  c == ' ' || c == '\t' || c == '\n' || c == '\r' || c == '\x0b' || c == '\x0c'

/-- Whether a string starts with a whitespace character. -/
def headWs : List Char → Bool
  | [] => false
  | c :: _ => isWs c

/-- Whether a string ends with a whitespace character. -/
def lastWs (s : List Char) : Bool := headWs s.reverse

/-- Worker for `splitWs`, accumulating the current word (reversed) in `acc`.
Models JS `String.prototype.split(/\s+/)`: the pieces between maximal
whitespace runs, including an empty piece before a leading run and an empty
piece after a trailing run (so `" a".split` gives `["", "a"]`). -/
def splitWsAux : List Char → List Char → List (List Char)
  | [], acc => [acc.reverse]
  | c :: rest, acc =>
    if isWs c then acc.reverse :: splitWsAux (rest.dropWhile isWs) []
    else splitWsAux rest (c :: acc)
termination_by s _ => s.length
decreasing_by
  all_goals simp_wf
  all_goals
    first
      | omega
      | exact Nat.lt_succ_of_le (List.dropWhile_sublist _).length_le

/-- JS `text.split(/\s+/)` from the chunkers in all three variants. -/
def splitWs (s : List Char) : List (List Char) := splitWsAux s []

/-- JS `s.replace(/\s+/g, " ")`: every maximal whitespace run becomes a
single space.  Used by the scrapers before `trim()`. -/
def jsReplaceWsRuns : List Char → List Char
  | [] => []
  | c :: rest =>
    if isWs c then ' ' :: jsReplaceWsRuns (rest.dropWhile isWs)
    else c :: jsReplaceWsRuns rest
termination_by s => s.length
decreasing_by
  all_goals simp_wf
  all_goals
    first
      | omega
      | exact Nat.lt_succ_of_le (List.dropWhile_sublist _).length_le

/-- JS `s.trim()`: remove leading and trailing whitespace. -/
def jsTrim (s : List Char) : List Char :=
  ((s.dropWhile isWs).reverse.dropWhile isWs).reverse

/-- The scraper's whitespace normalization `body.replace(/\s+/g, " ").trim()`
(src/index.js line 57, src/unnamed/part_000 line 59). -/
def normalizeWs (s : List Char) : List Char := jsTrim (jsReplaceWsRuns s)

/-- JS `words.join(" ")` on a list of strings-as-char-lists. -/
def joinSp : List (List Char) → List Char
  | [] => []
  | [w] => w
  | w :: w2 :: ws => w ++ ' ' :: joinSp (w2 :: ws)

/-- The chunking loop `for (let i = 0; i < words.length; i += chunkSize)
chunks.push(words.slice(i, i + chunkSize).join(" "))`, as the list of
windows it slices, for a positive chunk size.  (For `chunkSize = 0` this
total function returns `[]`; the JS loop does not terminate there, which is
modelled separately by `jsChunkLoopI`.) -/
def chunkWords (n : Nat) (l : List α) : List (List α) :=
  if l.isEmpty ∨ n = 0 then []
  else l.take n :: chunkWords n (l.drop n)
termination_by l.length
decreasing_by
  simp_wf
  rcases l with _ | ⟨a, l⟩
  · simp_all
  · simp only [List.isEmpty_cons] at *
    simp only [List.length_cons]
    omega

/-- Modelled from the spec: `wordCount(text)`, the number of words of a
text, i.e. the number of maximal non-whitespace runs (the nonempty pieces
of the whitespace split). -/
def specWordCount (s : List Char) : Nat :=
  ((splitWs s).filter (fun w => !w.isEmpty)).length

/-- JS `[...new Set(xs)]`: deduplication keeping the first occurrence of
each element, in first-seen order (Set iteration order is insertion order). -/
def jsSetDedup : List String → List String
  | [] => []
  | u :: us => u :: jsSetDedup (us.filter (fun x => !(x == u)))
termination_by l => l.length
decreasing_by
  simp_wf
  have h := List.length_filter_le (fun x => !(x == u)) us
  omega

/-- Metadata stored with each record: `{url, head, body}`. -/
structure Meta where
  url : String
  head : String
  body : String
deriving DecidableEq

/-- A record of the vector-store collection: `(id, embedding, metadata)`. -/
structure StoredRecord where
  id : String
  embedding : List Int
  metadata : Meta
deriving DecidableEq

/-- The external collaborators, as oracles: `page url` is the raw page the
browser/DOM layer yields (`(title, raw innerText)`, `none` on a network
failure), `embedApi` is the embedding endpoint (`none` when the call
errors), `query` is the vector store's nearest-neighbour query returning
the per-query metadata lists (the `metadatas` field of the chroma result),
and `gen` is the generative model. -/
structure Env where
  page : String → Option (String × String)
  embedApi : String → Option (List Int)
  query : List Int → Nat → List (List Meta)
  gen : String → String

/-- `generateVectorEmbeddings` (src/index.js lines 66-81): calls the
embedding API and returns `[]` when the call fails (the catch branch). -/
def generateVectorEmbeddings (env : Env) (text : String) : List Int :=
  match env.embedApi text with
  | some v => v
  | none => []

/-- Modelled from the spec (section 6): the Vector Store collaborator's
`upsert(id, embedding, metadata)` — idempotent write by id, replacing the
record with that id or appending a new one.  The chromadb client invoked by
`collection.add` is external, not part of this repository's sources. -/
def upsert (id : String) (emb : List Int) (m : Meta) : List StoredRecord → List StoredRecord
  | [] => [⟨id, emb, m⟩]
  | r :: rs => if r.id = id then ⟨id, emb, m⟩ :: rs else r :: upsert id emb m rs

/-- `insertIntoDB(id, embedding, url, body, head)` (src/index.js lines
84-97): skips the write entirely when the embedding is empty, otherwise
writes the record keyed by `id` with metadata `{url, head, body}`. -/
def insertIntoDB (id : String) (embedding : List Int) (url : String)
    (body : String) (head : String) (st : List StoredRecord) : List StoredRecord :=
  if embedding.isEmpty then st
  else upsert id embedding ⟨url, head, body⟩ st

/-- Lookup of a stored record by id (specification-side helper). -/
def lookupId (k : String) (st : List StoredRecord) : Option StoredRecord :=
  st.find? (fun r => r.id == k)

/-- Left-biased choice on options (specification-side helper). -/
def oElse (a b : Option α) : Option α :=
  match a with
  | some x => some x
  | none => b

/-- Scraper failure: a network/browser error, or the content-too-short
check. -/
inductive ScrapeErr where
  | network
  | tooShort
deriving DecidableEq

/-- The chunker's `InvalidInput` failure (part_000/part_001 variants). -/
inductive ChunkError where
  | invalidInput
deriving DecidableEq

/-- Per-URL ingestion outcome: the final `✅ Ingested` vs `❌ Failed to
ingest` report of `ingest`. -/
inductive IngestReport where
  | success
  | failure
deriving DecidableEq

/-- Outcome of `chat`: the early return on an empty result set (the
no-context signal) or the generative model's answer. -/
inductive ChatOutcome where
  | noContext
  | answered (text : String)
deriving DecidableEq

/-- The external calls `chat` performs, in order. -/
inductive ExtCall where
  | embedCall (text : String)
  | queryCall (emb : List Int) (k : Nat)
  | genCall (prompt : String)
deriving DecidableEq

namespace IndexJs

/-- `chunkText(text, chunkSize)` from src/index.js lines 100-106: split on
whitespace, slice into `chunkSize`-word windows, join each window with
single spaces.  No input validation (contrast `Part000.chunkText`). -/
def chunkText (text : List Char) (chunkSize : Int) : List (List Char) :=
  (chunkWords chunkSize.toNat (splitWs text)).map joinSp

/-- The scraper's result `{head, body}` (src/index.js lines 55-58). -/
structure Fetched where
  head : String
  body : String
deriving DecidableEq

/-- `scrapeWebPage` (src/index.js lines 26-63): the browser/DOM part is the
`env.page` oracle; the function then rejects empty or too-short content
(`!body || body.trim().length < 50`) and otherwise returns the title and
the whitespace-normalized body. -/
def scrapeWebPage (env : Env) (url : String) : Except ScrapeErr Fetched :=
  match env.page url with
  | none => .error .network
  | some (title, raw) =>
    if raw.data = [] ∨ (jsTrim raw.data).length < 50 then .error .tooShort
    else .ok ⟨title, String.mk (normalizeWs raw.data)⟩

/-- The deterministic chunk id `` `${url}-chunk-${i}` `` (src/index.js
line 116). -/
def chunkId (url : String) (i : Nat) : String :=
  url ++ "-chunk-" ++ toString i

/-- The body chunks an ingest of a fetched page produces
(src/index.js line 113: `chunkText(body, 500)`). -/
def bodyChunks (f : Fetched) : List String :=
  (chunkText f.body.data 500).map String.mk

/-- One iteration of the ingest loop (src/index.js lines 115-119): embed
chunk `i` and hand it to `insertIntoDB` under its chunk id. -/
def chunkStep (env : Env) (url : String) (head : String)
    (st : List StoredRecord) (p : Nat × String) : List StoredRecord :=
  insertIntoDB (chunkId url p.1) (generateVectorEmbeddings env p.2) url p.2 head st

/-- The chunk list an ingest of `url` works through (empty when the fetch
fails). -/
def ingestChunks (env : Env) (url : String) : List String :=
  match scrapeWebPage env url with
  | .error _ => []
  | .ok f => bodyChunks f

/-- `ingest(url)` (src/index.js lines 109-125): scrape, chunk, loop over the
chunks embedding and inserting each; the surrounding try/catch reports
failure exactly when the scrape throws, and never rethrows. -/
def ingest (env : Env) (url : String) (st : List StoredRecord) :
    IngestReport × List StoredRecord :=
  match scrapeWebPage env url with
  | .error _ => (.failure, st)
  | .ok f => (.success, (bodyChunks f).enum.foldl (chunkStep env url f.head) st)

/-- Ingestion of a batch of URLs, one `await ingest(...)` after another
(src/index.js lines 169-172), collecting the per-URL reports. -/
def ingestAll (env : Env) (urls : List String) (st : List StoredRecord) :
    List IngestReport × List StoredRecord :=
  urls.foldl (fun acc url =>
    let r := ingest env url acc.2
    (acc.1 ++ [r.1], r.2)) ([], st)

/-- Whether the scrape of `url` succeeds under `env`. -/
def scrapeOk (env : Env) (url : String) : Bool :=
  match scrapeWebPage env url with
  | .ok _ => true
  | .error _ => false

/-- The metadata list `chat` reads from the query result:
`results?.metadatas?.[0] || []` (src/index.js line 142). -/
def chatMetadatas (env : Env) (question : String) : List Meta :=
  ((env.query (generateVectorEmbeddings env question) 3).head?).getD []

/-- `metadatas.map((e) => e.body).filter(Boolean)` (src/index.js line 148):
JS truthiness keeps exactly the nonempty strings. -/
def chatBodies (metadatas : List Meta) : List String :=
  (metadatas.map Meta.body).filter (fun s => !(s == ""))

/-- `[...new Set(metadatas.map((e) => e.url))]` (src/index.js line 149). -/
def chatUrls (metadatas : List Meta) : List String :=
  jsSetDedup (metadatas.map Meta.url)

/-- The prompt template of src/index.js lines 151-161. -/
def buildPrompt (question : String) (urls : List String) (bodies : List String) : String :=
  "\nYou are an AI agent.\nBased on the context, answer the user.\n\nQuery: "
    ++ question
    ++ "\nURL(s): " ++ String.intercalate ", " urls
    ++ "\nContext:\n---\n" ++ String.intercalate "\n---\n" bodies
    ++ "\n---\nAnswer:"

/-- `chat(question)` (src/index.js lines 128-165), returning the outcome
together with the list of external calls performed: embed the question,
query the store with the (possibly empty) embedding, return early on an
empty metadata list, otherwise build the prompt and call the generative
model. -/
def chat (env : Env) (question : String) : ChatOutcome × List ExtCall :=
  let qe := generateVectorEmbeddings env question
  let metadatas := ((env.query qe 3).head?).getD []
  if metadatas.length = 0 then
    (.noContext, [.embedCall question, .queryCall qe 3])
  else
    let prompt := buildPrompt question (chatUrls metadatas) (chatBodies metadatas)
    (.answered (env.gen prompt), [.embedCall question, .queryCall qe 3, .genCall prompt])

/-- Whether a call log contains a generative-model invocation. -/
def hasGenCall (log : List ExtCall) : Bool :=
  log.any fun c =>
    match c with
    | .genCall _ => true
    | _ => false

/-- The last effective write of the ingest loop for key `k`
(specification-side helper for the upsert lemmas). -/
def lastWrite (env : Env) (url : String) (head : String)
    (ws : List (Nat × String)) (k : String) : Option StoredRecord :=
  ws.foldl (fun acc p =>
    if generateVectorEmbeddings env p.2 ≠ [] ∧ chunkId url p.1 = k then
      some ⟨chunkId url p.1, generateVectorEmbeddings env p.2, ⟨url, head, p.2⟩⟩
    else acc) none

/-- The index variable of the chunking loop
`for (let i = 0; i < words.length; i += chunkSize)` of src/index.js line
103, after a given number of iterations (the index advances by `chunkSize`
while `i < words.length` holds, as a JS number, i.e. an integer here). -/
def jsChunkLoopI (chunkSize : Int) (len : Nat) : Nat → Int
  | 0 => 0
  | k + 1 =>
    let i := jsChunkLoopI chunkSize len k
    if i < (len : Int) then i + chunkSize else i

end IndexJs

namespace Part000

/-- `chunkText(text, chunkSize)` from src/unnamed/part_000 lines 111-119
(identical in part_001): throws `Invalid input text` when the text is empty
or the chunk size is nonpositive, before any chunk is built; otherwise
behaves exactly like the src/index.js chunker. -/
def chunkText (text : List Char) (chunkSize : Int) :
    Except ChunkError (List (List Char)) :=
  if text = [] ∨ chunkSize ≤ 0 then .error .invalidInput
  else .ok ((chunkWords chunkSize.toNat (splitWs text)).map joinSp)

/-- The part_000 scraper's result (link extraction is not modelled; no
claim concerns it). -/
structure Fetched where
  head : String
  body : String
deriving DecidableEq

/-- `scrapeWebPage` from src/unnamed/part_000 lines 29-63: axios/cheerio
extraction is the `env.page` oracle; the body is whitespace-normalized and
returned.  There is no minimum-length check in this variant. -/
def scrapeWebPage (env : Env) (url : String) : Except ScrapeErr Fetched :=
  match env.page url with
  | none => .error .network
  | some (title, raw) => .ok ⟨title, String.mk (normalizeWs raw.data)⟩

end Part000

/-- Fixture: a store whose queries return no matches. -/
def envEmptyStore : Env :=
  ⟨fun _ => none, fun _ => some [1], fun _ _ => [], fun _ => "ans"⟩

/-- Fixture: the embedding endpoint fails on every input. -/
def envNoEmbed : Env :=
  ⟨fun _ => none, fun _ => none, fun _ _ => [], fun _ => "ans"⟩

/-- Fixture: every page fetch yields the 5-character body "short". -/
def envShort : Env :=
  ⟨fun _ => some ("t", "short"), fun _ => some [1], fun _ _ => [], fun _ => "ans"⟩

/-- Fixture: every page fetch yields a 60-character single-word body, and
embeddings succeed. -/
def envIngest : Env :=
  ⟨fun _ => some ("t", String.mk (List.replicate 60 'a')),
   fun _ => some [1, 2], fun _ _ => [], fun _ => "ans"⟩

/-- Fixture: a one-record store state with a nonempty embedding. -/
def stOne : List StoredRecord :=
  [⟨"a", [1], ⟨"u", "h", "b"⟩⟩]

/-! ### Basic facts about the whitespace split -/

theorem splitWsAux_ne_nil (s acc : List Char) : splitWsAux s acc ≠ [] := by
  induction s, acc using splitWsAux.induct with
  | case1 acc => simp [splitWsAux]
  | case2 c rest acc h ih => simp [splitWsAux, h]
  | case3 c rest acc h ih => simpa [splitWsAux, h] using ih

theorem splitWs_ne_nil (s : List Char) : splitWs s ≠ [] :=
  splitWsAux_ne_nil s []

theorem splitWs_length_pos (s : List Char) : 0 < (splitWs s).length :=
  List.length_pos.mpr (splitWs_ne_nil s)

/-! ### C10: termination behaviour of the chunking loop -/

/-- C10: the src/index.js chunking loop terminates for every input text
whenever `chunkSize > 0` (after at most `words.length` iterations the index
has passed the bound), while for `chunkSize ≤ 0` the index never reaches
the bound — the word array of a split is never empty, so the loop condition
stays true forever and termination is only guaranteed under the positive
chunk-size precondition. -/
theorem c10_chunk_loop_termination (text : List Char) (chunkSize : Int) :
    (0 < chunkSize →
      ∃ k, ¬ (IndexJs.jsChunkLoopI chunkSize (splitWs text).length k
        < ((splitWs text).length : Int)))
    ∧ (chunkSize ≤ 0 →
      ∀ k, IndexJs.jsChunkLoopI chunkSize (splitWs text).length k
        < ((splitWs text).length : Int)) := by
  have hlen : 1 ≤ (splitWs text).length := splitWs_length_pos text
  constructor
  · intro hpos
    refine ⟨(splitWs text).length, ?_⟩
    have key : ∀ k : Nat,
        ((splitWs text).length : Int) ≤ IndexJs.jsChunkLoopI chunkSize (splitWs text).length k
        ∨ (k : Int) ≤ IndexJs.jsChunkLoopI chunkSize (splitWs text).length k := by
      intro k
      induction k with
      | zero => right; simp [IndexJs.jsChunkLoopI]
      | succ k ih =>
        rw [IndexJs.jsChunkLoopI]
        by_cases hc : IndexJs.jsChunkLoopI chunkSize (splitWs text).length k
            < ((splitWs text).length : Int)
        · rcases ih with h | h
          · omega
          · right
            simp only [hc, if_true]
            push_cast
            omega
        · left
          simp only [hc, if_false]
          omega
    rcases key (splitWs text).length with h | h <;> omega
  · intro hnonpos k
    have key : IndexJs.jsChunkLoopI chunkSize (splitWs text).length k ≤ 0 := by
      induction k with
      | zero => simp [IndexJs.jsChunkLoopI]
      | succ k ih =>
        rw [IndexJs.jsChunkLoopI]
        split <;> omega
    omega

/-- Witness for C10 at the one-word text `['a']`, with chunk sizes 1 and 0. -/
theorem c10_witness :
    (∃ k, ¬ (IndexJs.jsChunkLoopI 1 (splitWs ['a']).length k
      < ((splitWs ['a']).length : Int)))
    ∧ (∀ k, IndexJs.jsChunkLoopI 0 (splitWs ['a']).length k
      < ((splitWs ['a']).length : Int)) :=
  ⟨(c10_chunk_loop_termination ['a'] 1).1 (by decide),
   (c10_chunk_loop_termination ['a'] 0).2 (by decide)⟩

/-! ### C2: input validation of the chunker -/

/-- C2 (amended): the part_000/part_001 `chunkText` throws its
`Invalid input text` error exactly when the text is empty or the target
word count is nonpositive, and on that path no chunk list is produced; the
src/index.js `chunkText` performs no such validation (see the
counterexample). -/
theorem c2_chunkText_invalid_input (text : List Char) (n : Int) :
    Part000.chunkText text n = .error .invalidInput ↔ (text = [] ∨ n ≤ 0) := by
  unfold Part000.chunkText
  split <;> simp_all

/-- C2 counterexample: the src/index.js variant of `chunkText` (also named
in the claim's sources) does not fail on empty input — `chunkText("", 500)`
returns the one-element chunk list `[""]` — while the guarded part_000
variant errors. -/
theorem c2_counterexample :
    IndexJs.chunkText [] 500 = [[]]
      ∧ Part000.chunkText [] 500 = .error .invalidInput := by
  constructor
  · simp [IndexJs.chunkText, splitWs, splitWsAux, chunkWords, joinSp]
  · rfl

/-! ### C9: minimum-length check of the scraper -/

/-- C9 (amended): for every fetched page, the src/index.js scraper fails
with the content-too-short error exactly when the trimmed raw body has
fewer than 50 characters, and otherwise succeeds with the title and the
whitespace-normalized body.  (The part_000 axios/cheerio scraper performs
no such check; see the counterexample.) -/
theorem c9_scrape_length_check (env : Env) (url : String) (title raw : String)
    (h : env.page url = some (title, raw)) :
    (IndexJs.scrapeWebPage env url = .error .tooShort ↔ (jsTrim raw.data).length < 50)
    ∧ (¬ (jsTrim raw.data).length < 50 →
        IndexJs.scrapeWebPage env url = .ok ⟨title, String.mk (normalizeWs raw.data)⟩) := by
  have hs : IndexJs.scrapeWebPage env url
      = if raw.data = [] ∨ (jsTrim raw.data).length < 50 then Except.error ScrapeErr.tooShort
        else Except.ok ⟨title, String.mk (normalizeWs raw.data)⟩ := by
    unfold IndexJs.scrapeWebPage
    rw [h]
  constructor
  · rw [hs]
    constructor
    · intro he
      by_contra hlen
      have hraw : ¬ (raw.data = [] ∨ (jsTrim raw.data).length < 50) := by
        rintro (hnil | hshort)
        · apply hlen
          rw [hnil]
          simp [jsTrim]
        · exact hlen hshort
      rw [if_neg hraw] at he
      exact Except.noConfusion he
    · intro hlen
      rw [if_pos (Or.inr hlen)]
  · intro hlen
    have hraw : ¬ (raw.data = [] ∨ (jsTrim raw.data).length < 50) := by
      rintro (hnil | hshort)
      · apply hlen
        rw [hnil]
        simp [jsTrim]
      · exact hlen hshort
    rw [hs, if_neg hraw]

/-- Witness for C9: under `envShort` every page body is `"short"`, whose
trimmed length 5 is below 50, and the src/index.js scrape indeed errors. -/
theorem c9_witness :
    (IndexJs.scrapeWebPage envShort "u" = .error .tooShort
      ↔ (jsTrim "short".data).length < 50)
    ∧ (¬ (jsTrim "short".data).length < 50 →
        IndexJs.scrapeWebPage envShort "u" = .ok ⟨"t", String.mk (normalizeWs "short".data)⟩) :=
  c9_scrape_length_check envShort "u" "t" "short" rfl

/-- C9 counterexample: the part_000 scraper (named in the claim's sources)
returns the 5-character body `"short"` successfully even though its length
is below the 50-character threshold — it has no minimum-length check. -/
theorem c9_counterexample :
    Part000.scrapeWebPage envShort "u" = .ok ⟨"t", "short"⟩
      ∧ (jsTrim "short".data).length < 50 := by
  constructor
  · simp [Part000.scrapeWebPage, envShort, normalizeWs, jsReplaceWsRuns, jsTrim, isWs]
  · decide

/-! ### C3: empty retrieval result short-circuits the model call -/

/-- C3: whenever the vector-store query yields an empty metadata list, the
src/index.js `chat` returns its no-context signal (the early return after
logging `🚫 No relevant context found.`) and the generative model is never
invoked — the call log contains no `genCall`. -/
theorem c3_no_context_short_circuit (env : Env) (question : String)
    (h : IndexJs.chatMetadatas env question = []) :
    (IndexJs.chat env question).1 = .noContext
      ∧ IndexJs.hasGenCall (IndexJs.chat env question).2 = false := by
  have h' : ((env.query (generateVectorEmbeddings env question) 3).head?).getD [] = [] := h
  simp [IndexJs.chat, h', IndexJs.hasGenCall]

/-- Witness for C3: a store with no matches (`envEmptyStore`). -/
theorem c3_witness :
    (IndexJs.chat envEmptyStore "q").1 = .noContext
      ∧ IndexJs.hasGenCall (IndexJs.chat envEmptyStore "q").2 = false :=
  c3_no_context_short_circuit envEmptyStore "q" rfl

/-! ### C6: empty question embedding -/

/-- C6 (amended): `chat` contains no empty-embedding guard: when the
embedding call for the question fails, `generateVectorEmbeddings` returns
`[]` and `chat` still issues the vector-store query, with the empty vector
as the query embedding — there is no `EmbeddingUnavailable` short-circuit,
and any failure would surface from the store call itself. -/
theorem c6_no_embedding_guard (env : Env) (question : String)
    (h : env.embedApi question = none) :
    generateVectorEmbeddings env question = []
      ∧ ExtCall.queryCall [] 3 ∈ (IndexJs.chat env question).2 := by
  have hg : generateVectorEmbeddings env question = [] := by
    simp [generateVectorEmbeddings, h]
  refine ⟨hg, ?_⟩
  simp only [IndexJs.chat, hg]
  split <;> simp

/-- Witness for C6 (amended) under the failing embedder `envNoEmbed`. -/
theorem c6_witness :
    generateVectorEmbeddings envNoEmbed "q" = []
      ∧ ExtCall.queryCall [] 3 ∈ (IndexJs.chat envNoEmbed "q").2 :=
  c6_no_embedding_guard envNoEmbed "q" rfl

/-- C6 counterexample: with a failing embedder the claim says no
vector-store query occurs, but the call log of `chat` does contain the
query call (made with the empty embedding). -/
theorem c6_counterexample :
    ExtCall.queryCall [] 3 ∈ (IndexJs.chat envNoEmbed "q").2 := by
  decide

/-! ### C4: no empty embedding is ever stored -/

theorem mem_upsert (r : StoredRecord) (id : String) (emb : List Int) (m : Meta)
    (st : List StoredRecord) (hr : r ∈ upsert id emb m st) :
    r = ⟨id, emb, m⟩ ∨ r ∈ st := by
  induction st with
  | nil => simpa [upsert] using hr
  | cons a rs ih =>
    rw [upsert] at hr
    split at hr
    · rcases List.mem_cons.mp hr with h | h
      · exact Or.inl h
      · exact Or.inr (List.mem_cons_of_mem a h)
    · rcases List.mem_cons.mp hr with h | h
      · exact Or.inr (h ▸ List.mem_cons_self a rs)
      · rcases ih h with h' | h'
        · exact Or.inl h'
        · exact Or.inr (List.mem_cons_of_mem a h')

theorem mem_insertIntoDB (r : StoredRecord) (id : String) (emb : List Int)
    (url body head : String) (st : List StoredRecord)
    (hr : r ∈ insertIntoDB id emb url body head st) :
    r ∈ st ∨ (emb ≠ [] ∧ r = ⟨id, emb, ⟨url, head, body⟩⟩) := by
  unfold insertIntoDB at hr
  split at hr
  · exact Or.inl hr
  · rcases mem_upsert r id emb ⟨url, head, body⟩ st hr with h | h
    · refine Or.inr ⟨?_, h⟩
      simp_all [List.isEmpty_iff]
    · exact Or.inl h

theorem insertIntoDB_inv (id : String) (emb : List Int) (url body head : String)
    (st : List StoredRecord) (hst : ∀ r ∈ st, r.embedding ≠ []) :
    ∀ r ∈ insertIntoDB id emb url body head st, r.embedding ≠ [] := by
  intro r hr
  rcases mem_insertIntoDB r id emb url body head st hr with h | ⟨hne, rfl⟩
  · exact hst r h
  · exact hne

theorem foldl_chunkStep_inv (env : Env) (url head : String)
    (ws : List (Nat × String)) (st : List StoredRecord)
    (hst : ∀ r ∈ st, r.embedding ≠ []) :
    ∀ r ∈ ws.foldl (IndexJs.chunkStep env url head) st, r.embedding ≠ [] := by
  induction ws generalizing st with
  | nil => simpa using hst
  | cons p ws ih =>
    rw [List.foldl_cons]
    exact ih _ (insertIntoDB_inv _ _ _ _ _ st hst)

/-- C4: the vector store never receives an empty embedding.  First, when
the embedding of a chunk is empty, `insertIntoDB` writes nothing at all:
the store state is returned unchanged.  Second, `insertIntoDB` preserves
the invariant that every stored record has a nonempty embedding, and so
does a whole `ingest` run — chunks whose embedding call failed are simply
skipped. -/
theorem c4_no_empty_embedding_stored (st : List StoredRecord) (id : String)
    (emb : List Int) (url body head : String) :
    (emb = [] → insertIntoDB id emb url body head st = st)
    ∧ ((∀ r ∈ st, r.embedding ≠ []) →
        ∀ r ∈ insertIntoDB id emb url body head st, r.embedding ≠ [])
    ∧ ((∀ r ∈ st, r.embedding ≠ []) →
        ∀ env u, ∀ r ∈ (IndexJs.ingest env u st).2, r.embedding ≠ []) := by
  refine ⟨?_, insertIntoDB_inv id emb url body head st, ?_⟩
  · intro he
    simp [insertIntoDB, he]
  · intro hst env u r hr
    unfold IndexJs.ingest at hr
    split at hr
    · exact hst r hr
    · exact foldl_chunkStep_inv env u _ _ st hst r hr

/-- Witness for C4 at the one-record store `stOne`: the empty-embedding
insert leaves it unchanged, and a full ingest under `envIngest` keeps every
embedding nonempty. -/
theorem c4_witness :
    insertIntoDB "i" [] "u" "b" "h" stOne = stOne
    ∧ (∀ r ∈ insertIntoDB "i" [] "u" "b" "h" stOne, r.embedding ≠ [])
    ∧ (∀ r ∈ (IndexJs.ingest envIngest "u" stOne).2, r.embedding ≠ []) :=
  ⟨(c4_no_empty_embedding_stored stOne "i" [] "u" "b" "h").1 rfl,
   (c4_no_empty_embedding_stored stOne "i" [] "u" "b" "h").2.1 (by decide),
   (c4_no_empty_embedding_stored stOne "i" [] "u" "b" "h").2.2 (by decide) envIngest "u"⟩

/-! ### C7: context extraction of chat -/

theorem mem_jsSetDedup (l : List String) (a : String) :
    a ∈ jsSetDedup l ↔ a ∈ l := by
  induction l using jsSetDedup.induct with
  | case1 => simp [jsSetDedup]
  | case2 u us ih =>
    rw [jsSetDedup]
    simp only [List.mem_cons, ih, List.mem_filter]
    constructor
    · rintro (rfl | ⟨h, _⟩)
      · exact Or.inl rfl
      · exact Or.inr h
    · rintro (rfl | h)
      · exact Or.inl rfl
      · by_cases hu : a = u
        · exact Or.inl hu
        · refine Or.inr ⟨h, ?_⟩
          simp [hu]

theorem nodup_jsSetDedup (l : List String) : (jsSetDedup l).Nodup := by
  induction l using jsSetDedup.induct with
  | case1 => simp [jsSetDedup]
  | case2 u us ih =>
    rw [jsSetDedup]
    refine List.Nodup.cons ?_ ih
    intro hu
    rcases (mem_jsSetDedup _ u).mp hu with h
    rcases List.mem_filter.mp h with ⟨_, hne⟩
    simp at hne

theorem sublist_jsSetDedup (l : List String) : List.Sublist (jsSetDedup l) l := by
  induction l using jsSetDedup.induct with
  | case1 => simp [jsSetDedup]
  | case2 u us ih =>
    rw [jsSetDedup]
    exact (ih.trans (List.filter_sublist us)).cons₂ u

theorem filter_indexOf_lt (p : String → Bool) (m : List String) (a b : String)
    (ha : a ∈ m.filter p) (hb : b ∈ m.filter p)
    (h : (m.filter p).indexOf a < (m.filter p).indexOf b) :
    m.indexOf a < m.indexOf b := by
  induction m with
  | nil => simp at ha
  | cons c m ih =>
    by_cases hpc : p c
    · rw [List.filter_cons_of_pos hpc] at ha hb h
      by_cases hac : a = c
      · subst hac
        have hba : b ≠ a := by
          rintro rfl
          rw [List.indexOf_cons_self] at h
          omega
        rw [List.indexOf_cons_self]
        rw [List.indexOf_cons_ne _ (Ne.symm hba)]
        omega
      · by_cases hbc : b = c
        · subst hbc
          rw [List.indexOf_cons_self] at h
          omega
        · rw [List.indexOf_cons_ne _ (fun hh => hac hh.symm)] at h
          rw [List.indexOf_cons_ne _ (fun hh => hbc hh.symm)] at h
          have ha' : a ∈ m.filter p := by
            rcases List.mem_cons.mp ha with h' | h'
            · exact absurd h' hac
            · exact h'
          have hb' : b ∈ m.filter p := by
            rcases List.mem_cons.mp hb with h' | h'
            · exact absurd h' hbc
            · exact h'
          have := ih ha' hb' (by omega)
          rw [List.indexOf_cons_ne _ (fun hh => hac hh.symm)]
          rw [List.indexOf_cons_ne _ (fun hh => hbc hh.symm)]
          omega
    · rw [List.filter_cons_of_neg hpc] at ha hb h
      have hac : a ≠ c := by
        rintro rfl
        exact hpc (List.mem_filter.mp ha).2
      have hbc : b ≠ c := by
        rintro rfl
        exact hpc (List.mem_filter.mp hb).2
      have := ih ha hb h
      rw [List.indexOf_cons_ne _ (fun hh => hac hh.symm)]
      rw [List.indexOf_cons_ne _ (fun hh => hbc hh.symm)]
      omega

theorem pairwise_indexOf_jsSetDedup (l : List String) :
    (jsSetDedup l).Pairwise (fun a b => l.indexOf a < l.indexOf b) := by
  induction l using jsSetDedup.induct with
  | case1 => simp [jsSetDedup]
  | case2 u us ih =>
    rw [jsSetDedup]
    rw [List.pairwise_cons]
    constructor
    · intro b hb
      have hbf := (mem_jsSetDedup _ b).mp hb
      rcases List.mem_filter.mp hbf with ⟨hbus, hbne⟩
      have hbu : b ≠ u := by simpa using hbne
      rw [List.indexOf_cons_self]
      rw [List.indexOf_cons_ne _ (Ne.symm hbu)]
      omega
    · refine List.Pairwise.imp_of_mem ?_ ih
      intro a b hamem hbmem hab
      have haf := (mem_jsSetDedup _ a).mp hamem
      have hbf := (mem_jsSetDedup _ b).mp hbmem
      have hau : a ≠ u := by
        have := (List.mem_filter.mp haf).2
        simpa using this
      have hbu : b ≠ u := by
        have := (List.mem_filter.mp hbf).2
        simpa using this
      have := filter_indexOf_lt _ us a b haf hbf hab
      rw [List.indexOf_cons_ne _ (Ne.symm hau)]
      rw [List.indexOf_cons_ne _ (Ne.symm hbu)]
      omega

/-- C7 (amended): from a retrieval result, `chat` extracts the ranked body
list with the JS-falsy (empty-string) bodies removed — order preserved, a
sublist of the ranked bodies containing exactly the nonempty ones — and the
source URLs deduplicated by set membership in first-seen rank order
(no duplicates, same membership as the ranked url list, and positions
ordered by first occurrence).  Whitespace-only bodies are NOT filtered out
(see the counterexample): `filter(Boolean)` only removes empty strings. -/
theorem c7_context_extraction (md : List Meta) :
    List.Sublist (IndexJs.chatBodies md) (md.map Meta.body)
    ∧ (∀ s, s ∈ IndexJs.chatBodies md ↔ s ∈ md.map Meta.body ∧ s ≠ "")
    ∧ (IndexJs.chatUrls md).Nodup
    ∧ (∀ u, u ∈ IndexJs.chatUrls md ↔ u ∈ md.map Meta.url)
    ∧ (IndexJs.chatUrls md).Pairwise
        (fun a b => (md.map Meta.url).indexOf a < (md.map Meta.url).indexOf b) := by
  refine ⟨List.filter_sublist _, ?_, nodup_jsSetDedup _,
    fun u => mem_jsSetDedup _ u, pairwise_indexOf_jsSetDedup _⟩
  intro s
  rw [IndexJs.chatBodies, List.mem_filter]
  simp

/-- C7 counterexample: a record whose body is the blank string `" "` is NOT
filtered out by `metadatas.map((e) => e.body).filter(Boolean)` — the blank
body (trimming to the empty string) survives extraction, contradicting
"empty/blank bodies filtered out". -/
theorem c7_counterexample :
    IndexJs.chatBodies [⟨"u", "h", " "⟩] = [" "] ∧ jsTrim " ".data = [] := by
  constructor
  · rfl
  · decide

/-! ### C8: per-URL success/failure reporting and isolation -/

theorem ingest_report (env : Env) (url : String) (st : List StoredRecord) :
    (IndexJs.ingest env url st).1
      = if IndexJs.scrapeOk env url then IngestReport.success else .failure := by
  unfold IndexJs.ingest IndexJs.scrapeOk
  rcases IndexJs.scrapeWebPage env url with e | f <;> simp

theorem ingestAll_reports (env : Env) (urls : List String)
    (acc : List IngestReport) (st : List StoredRecord) :
    (urls.foldl (fun a url =>
        let r := IndexJs.ingest env url a.2
        (a.1 ++ [r.1], r.2)) (acc, st)).1
      = acc ++ urls.map
          (fun u => if IndexJs.scrapeOk env u then IngestReport.success else .failure) := by
  induction urls generalizing acc st with
  | nil => simp
  | cons u us ih =>
    rw [List.foldl_cons]
    show (us.foldl _ (acc ++ [(IndexJs.ingest env u st).1], (IndexJs.ingest env u st).2)).1 = _
    rw [ih]
    rw [ingest_report]
    simp

/-- C8: the report of `ingest` for a URL is success exactly when the scrape
succeeded — embedding failures never turn the report into a failure (the
chunk loop's outcome does not appear in the report at all) — and a batch
ingest produces one report per URL where each URL's report depends only on
that URL's own scrape, never on the earlier URLs' outcomes or states, so a
fetch failure does not propagate across URLs. -/
theorem c8_failure_isolation (env : Env) (urls : List String) (url : String)
    (st st' : List StoredRecord) :
    ((IndexJs.ingest env url st').1
      = if IndexJs.scrapeOk env url then IngestReport.success else .failure)
    ∧ (IndexJs.ingestAll env urls st).1
        = urls.map
            (fun u => if IndexJs.scrapeOk env u then IngestReport.success else .failure) := by
  refine ⟨ingest_report env url st', ?_⟩
  have h := ingestAll_reports env urls [] st
  simpa [IndexJs.ingestAll] using h

/-! ### C5: deterministic chunk ids and idempotent re-ingestion -/

theorem oElse_assoc (a b c : Option α) : oElse (oElse a b) c = oElse a (oElse b c) := by
  cases a <;> rfl

theorem oElse_self (a b : Option α) : oElse a (oElse a b) = oElse a b := by
  cases a <;> rfl

theorem oElse_ne_none (a b : Option α) (h : a ≠ none ∨ b ≠ none) :
    oElse a b ≠ none := by
  cases a
  · rcases h with h | h
    · exact absurd rfl h
    · exact h
  · simp [oElse]

theorem lookupId_cons (k : String) (r : StoredRecord) (rs : List StoredRecord) :
    lookupId k (r :: rs) = if r.id = k then some r else lookupId k rs := by
  rw [lookupId, List.find?]
  by_cases h : r.id = k
  · simp [h]
  · have hb : (r.id == k) = false := by simp [h]
    rw [hb, if_neg h]
    rfl

theorem lookupId_upsert (k id : String) (e : List Int) (m : Meta)
    (st : List StoredRecord) :
    lookupId k (upsert id e m st)
      = if id = k then some ⟨id, e, m⟩ else lookupId k st := by
  induction st with
  | nil =>
    rw [upsert, lookupId_cons]
  | cons r rs ih =>
    rw [upsert]
    by_cases hr : r.id = id
    · rw [if_pos hr, lookupId_cons, lookupId_cons]
      by_cases hk : id = k
      · rw [if_pos hk, if_pos hk]
      · rw [if_neg hk, if_neg hk, if_neg (fun h => hk (hr ▸ h))]
    · rw [if_neg hr, lookupId_cons, ih, lookupId_cons]
      by_cases hrk : r.id = k
      · have hk : ¬ id = k := fun h => hr (by rw [hrk, h])
        rw [if_pos hrk, if_neg hk, if_pos hrk]
      · rw [if_neg hrk]
        by_cases hk : id = k
        · rw [if_pos hk, if_pos hk]
        · rw [if_neg hk, if_neg hk, if_neg hrk]

theorem lookupId_insertIntoDB (k id : String) (e : List Int)
    (url body head : String) (st : List StoredRecord) :
    lookupId k (insertIntoDB id e url body head st)
      = oElse (if e ≠ [] ∧ id = k then some ⟨id, e, ⟨url, head, body⟩⟩ else none)
          (lookupId k st) := by
  unfold insertIntoDB
  by_cases he : e.isEmpty
  · have he' : e = [] := by simpa [List.isEmpty_iff] using he
    simp [he, he', oElse]
  · have he' : e ≠ [] := by simpa [List.isEmpty_iff] using he
    rw [if_neg he, lookupId_upsert]
    by_cases hk : id = k
    · rw [if_pos hk, if_pos ⟨he', hk⟩]
      rfl
    · rw [if_neg hk, if_neg (fun hc => hk hc.2)]
      rfl

theorem lastWrite_foldl_acc (env : Env) (url head k : String)
    (ws : List (Nat × String)) (acc : Option StoredRecord) :
    ws.foldl (fun acc p =>
        if generateVectorEmbeddings env p.2 ≠ [] ∧ IndexJs.chunkId url p.1 = k then
          some ⟨IndexJs.chunkId url p.1, generateVectorEmbeddings env p.2,
            ⟨url, head, p.2⟩⟩
        else acc) acc
      = oElse (IndexJs.lastWrite env url head ws k) acc := by
  induction ws generalizing acc with
  | nil => rw [List.foldl_nil, IndexJs.lastWrite, List.foldl_nil]; rfl
  | cons p ws ih =>
    rw [List.foldl_cons, ih]
    have h1 : IndexJs.lastWrite env url head (p :: ws) k
        = oElse (IndexJs.lastWrite env url head ws k)
            (if generateVectorEmbeddings env p.2 ≠ [] ∧ IndexJs.chunkId url p.1 = k then
              some ⟨IndexJs.chunkId url p.1, generateVectorEmbeddings env p.2,
                ⟨url, head, p.2⟩⟩
            else none) := by
      rw [IndexJs.lastWrite, List.foldl_cons, ih]
    rw [h1, oElse_assoc]
    congr 1
    split <;> rfl

theorem lastWrite_cons (env : Env) (url head k : String) (p : Nat × String)
    (ws : List (Nat × String)) :
    IndexJs.lastWrite env url head (p :: ws) k
      = oElse (IndexJs.lastWrite env url head ws k)
          (if generateVectorEmbeddings env p.2 ≠ [] ∧ IndexJs.chunkId url p.1 = k then
            some ⟨IndexJs.chunkId url p.1, generateVectorEmbeddings env p.2,
              ⟨url, head, p.2⟩⟩
          else none) := by
  rw [IndexJs.lastWrite, List.foldl_cons, lastWrite_foldl_acc]

theorem lookupId_foldl_chunkStep (env : Env) (url head k : String)
    (ws : List (Nat × String)) (st : List StoredRecord) :
    lookupId k (ws.foldl (IndexJs.chunkStep env url head) st)
      = oElse (IndexJs.lastWrite env url head ws k) (lookupId k st) := by
  induction ws generalizing st with
  | nil => rw [List.foldl_nil, IndexJs.lastWrite, List.foldl_nil]; rfl
  | cons p ws ih =>
    rw [List.foldl_cons, ih]
    have hstep : lookupId k (IndexJs.chunkStep env url head st p)
        = oElse (if generateVectorEmbeddings env p.2 ≠ [] ∧ IndexJs.chunkId url p.1 = k then
            some ⟨IndexJs.chunkId url p.1, generateVectorEmbeddings env p.2,
              ⟨url, head, p.2⟩⟩
          else none) (lookupId k st) := by
      rw [IndexJs.chunkStep, lookupId_insertIntoDB]
    rw [hstep, lastWrite_cons, oElse_assoc]

theorem mem_foldl_chunkStep (env : Env) (url head : String)
    (ws : List (Nat × String)) (st : List StoredRecord) (r : StoredRecord)
    (hr : r ∈ ws.foldl (IndexJs.chunkStep env url head) st) :
    r ∈ st ∨ ∃ p ∈ ws, r.id = IndexJs.chunkId url p.1 := by
  induction ws generalizing st with
  | nil => exact Or.inl hr
  | cons p ws ih =>
    rw [List.foldl_cons] at hr
    rcases ih _ hr with h | ⟨q, hq, hid⟩
    · rcases mem_insertIntoDB r _ _ _ _ _ st h with h' | ⟨_, rfl⟩
      · exact Or.inl h'
      · exact Or.inr ⟨p, List.mem_cons_self p ws, rfl⟩
    · exact Or.inr ⟨q, List.mem_cons_of_mem p hq, hid⟩

theorem mem_map_id_upsert (k id : String) (e : List Int) (m : Meta)
    (st : List StoredRecord) :
    k ∈ (upsert id e m st).map StoredRecord.id
      ↔ k = id ∨ k ∈ st.map StoredRecord.id := by
  induction st with
  | nil => simp [upsert]
  | cons r rs ih =>
    rw [upsert]
    by_cases hr : r.id = id
    · rw [if_pos hr]
      simp only [List.map_cons, List.mem_cons, hr]
      tauto
    · rw [if_neg hr]
      simp only [List.map_cons, List.mem_cons, ih]
      tauto

theorem nodup_id_upsert (id : String) (e : List Int) (m : Meta)
    (st : List StoredRecord) (h : (st.map StoredRecord.id).Nodup) :
    ((upsert id e m st).map StoredRecord.id).Nodup := by
  induction st with
  | nil => simp [upsert]
  | cons r rs ih =>
    rw [List.map_cons, List.nodup_cons] at h
    rw [upsert]
    by_cases hr : r.id = id
    · rw [if_pos hr]
      rw [List.map_cons, List.nodup_cons]
      exact ⟨hr ▸ h.1, h.2⟩
    · rw [if_neg hr]
      rw [List.map_cons, List.nodup_cons]
      refine ⟨?_, ih h.2⟩
      intro hmem
      rcases (mem_map_id_upsert _ _ _ _ _).mp hmem with h' | h'
      · exact hr h'
      · exact h.1 h'

theorem nodup_id_insertIntoDB (id : String) (e : List Int) (url body head : String)
    (st : List StoredRecord) (h : (st.map StoredRecord.id).Nodup) :
    ((insertIntoDB id e url body head st).map StoredRecord.id).Nodup := by
  unfold insertIntoDB
  split
  · exact h
  · exact nodup_id_upsert id e _ st h

theorem nodup_id_foldl_chunkStep (env : Env) (url head : String)
    (ws : List (Nat × String)) (st : List StoredRecord)
    (h : (st.map StoredRecord.id).Nodup) :
    ((ws.foldl (IndexJs.chunkStep env url head) st).map StoredRecord.id).Nodup := by
  induction ws generalizing st with
  | nil => exact h
  | cons p ws ih =>
    rw [List.foldl_cons]
    exact ih _ (nodup_id_insertIntoDB _ _ _ _ _ st h)

theorem lastWrite_ne_none (env : Env) (url head k : String)
    (ws : List (Nat × String))
    (h : ∃ p ∈ ws, generateVectorEmbeddings env p.2 ≠ [] ∧ IndexJs.chunkId url p.1 = k) :
    IndexJs.lastWrite env url head ws k ≠ none := by
  induction ws with
  | nil => simp at h
  | cons p ws ih =>
    rw [lastWrite_cons]
    rcases h with ⟨q, hq, hcond⟩
    rcases List.mem_cons.mp hq with rfl | hq'
    · refine oElse_ne_none _ _ (Or.inr ?_)
      rw [if_pos hcond]
      simp
    · exact oElse_ne_none _ _ (Or.inl (ih ⟨q, hq', hcond⟩))

theorem exists_mem_of_lookupId_ne_none (k : String) (st : List StoredRecord)
    (h : lookupId k st ≠ none) : ∃ r ∈ st, r.id = k := by
  rcases heq : lookupId k st with _ | r
  · exact absurd heq h
  · rw [lookupId] at heq
    refine ⟨r, List.mem_of_find?_eq_some heq, ?_⟩
    have := List.find?_some heq
    simpa using this

theorem mem_enum_get (l : List α) (i : Nat) (h : i < l.length) :
    (i, l.get ⟨i, h⟩) ∈ l.enum := by
  have h2 : l.enum[i]? = some (i, l.get ⟨i, h⟩) := by
    simp [List.getElem?_enum, List.getElem?_eq_getElem h, List.get_eq_getElem]
  exact List.getElem?_mem h2

/-- C5: (i) every record an ingest adds carries an id of the form
`url + "-chunk-" + i` for a chunk index `i` of that ingest; (ii) every
chunk whose embedding succeeded is present in the store under exactly that
id; (iii) ingesting the same URL twice under the same environment (same
fetched content, same embeddings) leaves exactly the same store contents
as ingesting it once — every id resolves to the same record, a pure
overwrite with no duplicates; and (iv) ingestion never introduces
duplicate ids into a store whose ids were distinct. -/
theorem c5_chunk_ids_idempotent_upsert (env : Env) (url : String)
    (st : List StoredRecord) :
    (∀ r ∈ (IndexJs.ingest env url st).2,
        r ∈ st ∨ ∃ i, i < (IndexJs.ingestChunks env url).length
          ∧ r.id = IndexJs.chunkId url i)
    ∧ (∀ i c, (IndexJs.ingestChunks env url)[i]? = some c →
        generateVectorEmbeddings env c ≠ [] →
        ∃ r ∈ (IndexJs.ingest env url st).2, r.id = IndexJs.chunkId url i)
    ∧ (∀ k, lookupId k (IndexJs.ingest env url (IndexJs.ingest env url st).2).2
        = lookupId k (IndexJs.ingest env url st).2)
    ∧ ((st.map StoredRecord.id).Nodup →
        ((IndexJs.ingest env url st).2.map StoredRecord.id).Nodup) := by
  rcases hscrape : IndexJs.scrapeWebPage env url with e | f
  · have hch : IndexJs.ingestChunks env url = [] := by
      simp [IndexJs.ingestChunks, hscrape]
    have hing : ∀ s, (IndexJs.ingest env url s).2 = s := by
      intro s
      simp [IndexJs.ingest, hscrape]
    refine ⟨?_, ?_, ?_, ?_⟩
    · intro r hr
      rw [hing] at hr
      exact Or.inl hr
    · intro i c hc
      rw [hch] at hc
      simp at hc
    · intro k
      simp [hing]
    · intro h
      rw [hing]
      exact h
  · have hch : IndexJs.ingestChunks env url = IndexJs.bodyChunks f := by
      simp [IndexJs.ingestChunks, hscrape]
    have hing : ∀ s, (IndexJs.ingest env url s).2
        = ((IndexJs.bodyChunks f).enum).foldl (IndexJs.chunkStep env url f.head) s := by
      intro s
      simp [IndexJs.ingest, hscrape]
    refine ⟨?_, ?_, ?_, ?_⟩
    · intro r hr
      rw [hing] at hr
      rcases mem_foldl_chunkStep env url f.head _ st r hr with h | ⟨p, hp, hid⟩
      · exact Or.inl h
      · refine Or.inr ⟨p.1, ?_, hid⟩
        rw [hch]
        exact List.fst_lt_of_mem_enum hp
    · intro i c hc hemb
      rw [hch] at hc
      have hmem : (i, c) ∈ (IndexJs.bodyChunks f).enum := by
        have h2 : (IndexJs.bodyChunks f).enum[i]? = some (i, c) := by
          simp [List.getElem?_enum, hc]
        exact List.getElem?_mem h2
      have hlw : IndexJs.lastWrite env url f.head ((IndexJs.bodyChunks f).enum)
          (IndexJs.chunkId url i) ≠ none :=
        lastWrite_ne_none env url f.head _ _ ⟨(i, c), hmem, hemb, rfl⟩
      have hlk : lookupId (IndexJs.chunkId url i) (IndexJs.ingest env url st).2 ≠ none := by
        rw [hing, lookupId_foldl_chunkStep]
        exact oElse_ne_none _ _ (Or.inl hlw)
      exact exists_mem_of_lookupId_ne_none _ _ hlk
    · intro k
      rw [hing, hing, lookupId_foldl_chunkStep, lookupId_foldl_chunkStep, oElse_self]
    · intro h
      rw [hing]
      exact nodup_id_foldl_chunkStep env url f.head _ st h

/-- Witness for C5: under `envIngest` the single 60-character chunk of
`"u"` is stored under id `u-chunk-0`, re-ingestion changes nothing at that
id, and the resulting ids are duplicate-free. -/
theorem c5_witness :
    (∃ r ∈ (IndexJs.ingest envIngest "u" []).2, r.id = IndexJs.chunkId "u" 0)
    ∧ lookupId (IndexJs.chunkId "u" 0)
        (IndexJs.ingest envIngest "u" (IndexJs.ingest envIngest "u" []).2).2
      = lookupId (IndexJs.chunkId "u" 0) (IndexJs.ingest envIngest "u" []).2
    ∧ ((IndexJs.ingest envIngest "u" []).2.map StoredRecord.id).Nodup := by
  have T := c5_chunk_ids_idempotent_upsert envIngest "u" []
  refine ⟨T.2.1 0 (String.mk (List.replicate 60 'a')) ?_ ?_,
    T.2.2.1 (IndexJs.chunkId "u" 0), T.2.2.2 (by simp)⟩
  · simp [IndexJs.ingestChunks, IndexJs.scrapeWebPage, envIngest, IndexJs.bodyChunks,
      IndexJs.chunkText, normalizeWs, jsReplaceWsRuns, jsTrim, isWs, splitWs, splitWsAux,
      chunkWords, joinSp, List.replicate]
  · decide

/-! ### C1: chunking correctness on whitespace-normalized text -/

theorem joinSp_cons (w : List Char) (ws : List (List Char)) (h : ws ≠ []) :
    joinSp (w :: ws) = w ++ ' ' :: joinSp ws := by
  rcases ws with _ | ⟨w2, ws⟩
  · exact absurd rfl h
  · rfl

theorem joinSp_splitWsAux (s acc : List Char) :
    joinSp (splitWsAux s acc) = acc.reverse ++ jsReplaceWsRuns s := by
  induction s, acc using splitWsAux.induct with
  | case1 acc =>
    rw [splitWsAux, jsReplaceWsRuns]
    simp [joinSp]
  | case2 c rest acc h ih =>
    rw [splitWsAux, if_pos h, joinSp_cons _ _ (splitWsAux_ne_nil _ _), ih]
    rw [jsReplaceWsRuns, if_pos h]
    simp
  | case3 c rest acc h ih =>
    rw [splitWsAux, if_neg (by simp [h]), ih]
    rw [jsReplaceWsRuns, if_neg (by simp [h])]
    simp

theorem joinSp_splitWs (s : List Char) :
    joinSp (splitWs s) = jsReplaceWsRuns s := by
  simpa using joinSp_splitWsAux s []

theorem splitWsAux_wsfree (s acc : List Char) (hacc : ∀ c ∈ acc, isWs c = false) :
    ∀ w ∈ splitWsAux s acc, ∀ c ∈ w, isWs c = false := by
  induction s, acc using splitWsAux.induct with
  | case1 acc =>
    rw [splitWsAux]
    intro w hw c hc
    rcases List.mem_singleton.mp hw with rfl
    exact hacc c (List.mem_reverse.mp hc)
  | case2 c rest acc h ih =>
    rw [splitWsAux, if_pos h]
    intro w hw d hd
    rcases List.mem_cons.mp hw with rfl | hw'
    · exact hacc d (List.mem_reverse.mp hd)
    · exact ih (by simp) w hw' d hd
  | case3 c rest acc h ih =>
    rw [splitWsAux, if_neg (by simp [h])]
    intro w hw d hd
    refine ih ?_ w hw d hd
    intro e he
    rcases List.mem_cons.mp he with rfl | he'
    · simpa using h
    · exact hacc e he'

theorem splitWs_wsfree (s : List Char) :
    ∀ w ∈ splitWs s, ∀ c ∈ w, isWs c = false :=
  splitWsAux_wsfree s [] (by simp)

theorem headWs_append (xs ys : List Char) (h : xs ≠ []) :
    headWs (xs ++ ys) = headWs xs := by
  rcases xs with _ | ⟨c, xs⟩
  · exact absurd rfl h
  · rfl

theorem lastWs_cons (c : Char) (t : List Char) :
    lastWs (c :: t) = if t.isEmpty then isWs c else lastWs t := by
  rcases ht : t with _ | ⟨d, t2⟩
  · rfl
  · rw [lastWs, List.reverse_cons]
    rw [headWs_append _ _ (by simp [ht])]
    simp [lastWs]

theorem dropWhile_headWs (s : List Char) (h : headWs s = false) :
    s.dropWhile isWs = s := by
  rcases s with _ | ⟨c, s⟩
  · rfl
  · rw [List.dropWhile_cons, if_neg (by simp_all [headWs])]

theorem jsTrim_eq_self (s : List Char) (h1 : headWs s = false) (h2 : lastWs s = false) :
    jsTrim s = s := by
  rw [jsTrim, dropWhile_headWs s h1, dropWhile_headWs s.reverse h2, List.reverse_reverse]

theorem headWs_replaceRuns (s : List Char) :
    headWs (jsReplaceWsRuns s) = headWs s := by
  rcases s with _ | ⟨c, s⟩
  · rw [jsReplaceWsRuns]
  · rw [jsReplaceWsRuns]
    by_cases h : isWs c
    · rw [if_pos h]
      show isWs ' ' = isWs c
      rw [h]
      decide
    · rw [if_neg h]
      rfl

theorem jsReplaceWsRuns_ne_nil (s : List Char) (h : s ≠ []) :
    jsReplaceWsRuns s ≠ [] := by
  rcases s with _ | ⟨c, s⟩
  · exact absurd rfl h
  · rw [jsReplaceWsRuns]
    split <;> simp

theorem lastWs_dropWhile (s : List Char) (h : s.dropWhile isWs ≠ []) :
    lastWs (s.dropWhile isWs) = lastWs s := by
  conv_rhs => rw [← List.takeWhile_append_dropWhile isWs s]
  rw [lastWs, lastWs, List.reverse_append]
  rw [headWs_append _ _ (by simpa using h)]

theorem all_ws_lastWs (s : List Char) (h : ∀ c ∈ s, isWs c = true) (hne : s ≠ []) :
    lastWs s = true := by
  rw [lastWs]
  rcases hr : s.reverse with _ | ⟨c, t⟩
  · exact absurd (List.reverse_eq_nil_iff.mp hr) hne
  · have hc : c ∈ s := by
      rw [← List.mem_reverse, hr]
      exact List.mem_cons_self c t
    simpa [headWs] using h c hc

theorem lastWs_replaceRuns (s : List Char) :
    lastWs (jsReplaceWsRuns s) = lastWs s := by
  induction s using jsReplaceWsRuns.induct with
  | case1 => rw [jsReplaceWsRuns]
  | case2 c rest h ih =>
    have hnil : jsReplaceWsRuns ([] : List Char) = [] := by rw [jsReplaceWsRuns]
    rw [jsReplaceWsRuns, if_pos h]
    by_cases hs : rest.dropWhile isWs = []
    · have hall : ∀ d ∈ rest, isWs d = true := List.dropWhile_eq_nil_iff.mp hs
      rw [hs, hnil]
      have hr : lastWs (c :: rest) = true := by
        refine all_ws_lastWs _ ?_ (by simp)
        intro d hd
        rcases List.mem_cons.mp hd with rfl | hd'
        · exact h
        · exact hall d hd'
      rw [hr]
      decide
    · have hrr : jsReplaceWsRuns (rest.dropWhile isWs) ≠ [] :=
        jsReplaceWsRuns_ne_nil _ hs
      rw [lastWs_cons, if_neg (by simpa using hrr), ih]
      have hrest : rest ≠ [] := by
        intro hr
        rw [hr] at hs
        exact hs rfl
      rw [lastWs_dropWhile rest hs, lastWs_cons, if_neg (by simpa using hrest)]
  | case3 c rest h ih =>
    have hnil : jsReplaceWsRuns ([] : List Char) = [] := by rw [jsReplaceWsRuns]
    rw [jsReplaceWsRuns, if_neg (by simp [h])]
    by_cases hrest : rest = []
    · subst hrest
      rw [hnil]
    · have hrr : jsReplaceWsRuns rest ≠ [] := jsReplaceWsRuns_ne_nil _ hrest
      rw [lastWs_cons, if_neg (by simpa using hrr), ih]
      rw [lastWs_cons, if_neg (by simpa using hrest)]

theorem normalizeWs_of_noEdgeWs (s : List Char)
    (h1 : headWs s = false) (h2 : lastWs s = false) :
    normalizeWs s = jsReplaceWsRuns s := by
  rw [normalizeWs]
  exact jsTrim_eq_self _ (by rw [headWs_replaceRuns, h1]) (by rw [lastWs_replaceRuns, h2])

theorem headWs_dropWhile (s : List Char) (h : s.dropWhile isWs ≠ []) :
    headWs (s.dropWhile isWs) = false := by
  induction s with
  | nil => exact absurd rfl h
  | cons c rest ih =>
    rw [List.dropWhile_cons]
    by_cases hc : isWs c
    · rw [if_pos hc]
      refine ih ?_
      rw [List.dropWhile_cons, if_pos hc] at h
      exact h
    · rw [if_neg hc]
      simpa [headWs] using hc

theorem dropWhile_ne_nil_of_lastWs (rest : List Char)
    (h : lastWs rest = false) (hne : rest ≠ []) :
    rest.dropWhile isWs ≠ [] := by
  intro hnil
  have hall := List.dropWhile_eq_nil_iff.mp hnil
  have := all_ws_lastWs rest hall hne
  rw [h] at this
  exact Bool.noConfusion this

theorem splitWsAux_words_ne_nil (s acc : List Char)
    (hyp1 : acc ≠ [] ∨ (s ≠ [] ∧ headWs s = false))
    (hyp2 : s = [] ∨ lastWs s = false) :
    ∀ w ∈ splitWsAux s acc, w ≠ [] := by
  induction s, acc using splitWsAux.induct with
  | case1 acc =>
    rw [splitWsAux]
    intro w hw
    rcases List.mem_singleton.mp hw with rfl
    rcases hyp1 with h | ⟨hne, _⟩
    · simpa using h
    · exact absurd rfl hne
  | case2 c rest acc h ih =>
    rw [splitWsAux, if_pos h]
    have hacc : acc ≠ [] := by
      rcases hyp1 with h' | ⟨_, hh⟩
      · exact h'
      · rw [show headWs (c :: rest) = isWs c from rfl, h] at hh
        exact Bool.noConfusion hh
    have hlast : lastWs (c :: rest) = false := by
      rcases hyp2 with h' | h'
      · exact absurd h' (by simp)
      · exact h'
    have hrest : rest ≠ [] := by
      intro hr
      subst hr
      rw [lastWs_cons] at hlast
      simp [h] at hlast
    have hlr : lastWs rest = false := by
      rw [lastWs_cons, if_neg (by simpa using hrest)] at hlast
      exact hlast
    have hdw : rest.dropWhile isWs ≠ [] := dropWhile_ne_nil_of_lastWs rest hlr hrest
    intro w hw
    rcases List.mem_cons.mp hw with rfl | hw'
    · simpa using hacc
    · refine ih ?_ ?_ w hw'
      · exact Or.inr ⟨hdw, headWs_dropWhile rest hdw⟩
      · exact Or.inr (by rw [lastWs_dropWhile rest hdw]; exact hlr)
  | case3 c rest acc h ih =>
    rw [splitWsAux, if_neg (by simp [h])]
    intro w hw
    refine ih (Or.inl (by simp)) ?_ w hw
    by_cases hrest : rest = []
    · exact Or.inl hrest
    · refine Or.inr ?_
      rcases hyp2 with h' | h'
      · exact absurd h' (by simp)
      · rw [lastWs_cons, if_neg (by simpa using hrest)] at h'
        exact h'

theorem splitWs_words_ne_nil (s : List Char) (h0 : s ≠ [])
    (h1 : headWs s = false) (h2 : lastWs s = false) :
    ∀ w ∈ splitWs s, w ≠ [] :=
  splitWsAux_words_ne_nil s [] (Or.inr ⟨h0, h1⟩) (Or.inr h2)

theorem splitWsAux_push (w s acc : List Char) (hw : ∀ c ∈ w, isWs c = false) :
    splitWsAux (w ++ s) acc = splitWsAux s (w.reverse ++ acc) := by
  induction w generalizing acc with
  | nil => simp
  | cons c w ih =>
    rw [List.cons_append, splitWsAux,
      if_neg (by simp [hw c (List.mem_cons_self c w)])]
    rw [ih _ (fun d hd => hw d (List.mem_cons_of_mem c hd))]
    simp

theorem headWs_joinSp (w : List Char) (vs : List (List Char))
    (hw : w ≠ []) : headWs (joinSp (w :: vs)) = headWs w := by
  rcases vs with _ | ⟨w2, vs⟩
  · rfl
  · rw [joinSp_cons _ _ (by simp), headWs_append _ _ hw]

theorem splitWs_joinSp (v : List (List Char)) (hv : v ≠ [])
    (hne : ∀ w ∈ v, w ≠ []) (hwf : ∀ w ∈ v, ∀ c ∈ w, isWs c = false) :
    splitWs (joinSp v) = v := by
  induction v with
  | nil => exact absurd rfl hv
  | cons w v ih =>
    have hwX : ∀ c ∈ w, isWs c = false := hwf w (List.mem_cons_self w v)
    rcases v with _ | ⟨w2, vs⟩
    · show splitWsAux (joinSp [w]) [] = [w]
      have : joinSp [w] = w ++ [] := by simp [joinSp]
      rw [this, splitWsAux_push w [] [] hwX, splitWsAux]
      simp
    · rw [joinSp_cons _ _ (by simp)]
      rw [splitWs, splitWsAux_push w _ [] hwX]
      rw [splitWsAux, if_pos (by decide)]
      have hdrop : (joinSp (w2 :: vs)).dropWhile isWs = joinSp (w2 :: vs) := by
        refine dropWhile_headWs _ ?_
        rw [headWs_joinSp _ _ (hne w2 (by simp))]
        have hw2 : w2 ≠ [] := hne w2 (by simp)
        rcases hw2' : w2 with _ | ⟨c, w2t⟩
        · exact absurd hw2' hw2
        · have : isWs c = false := by
            refine hwf w2 (by simp) c ?_
            rw [hw2']
            exact List.mem_cons_self c w2t
          simpa [headWs, hw2'] using this
      rw [hdrop]
      have ihv : splitWs (joinSp (w2 :: vs)) = w2 :: vs := by
        refine ih (by simp) ?_ ?_
        · intro x hx
          exact hne x (List.mem_cons_of_mem w hx)
        · intro x hx
          exact hwf x (List.mem_cons_of_mem w hx)
      rw [show splitWsAux (joinSp (w2 :: vs)) [] = splitWs (joinSp (w2 :: vs)) from rfl]
      rw [ihv]
      simp

theorem chunkWords_flatten {α : Type} (n : Nat) (hn : n ≠ 0) (l : List α) :
    (chunkWords n l).flatten = l := by
  refine chunkWords.induct n (fun l => (chunkWords n l).flatten = l) ?_ ?_ l
  · intro x hcond
    rw [chunkWords, if_pos hcond]
    rcases hcond with h | h
    · simp only [List.isEmpty_iff] at h
      simp [h]
    · exact absurd h hn
  · intro x hcond ih
    rw [chunkWords, if_neg hcond]
    rw [List.flatten_cons, ih, List.take_append_drop]

theorem chunkWords_mem {α : Type} (n : Nat) (hn : 0 < n) (l : List α) :
    ∀ w ∈ chunkWords n l, w.length ≤ n ∧ w ≠ [] := by
  refine chunkWords.induct n
    (fun l => ∀ w ∈ chunkWords n l, w.length ≤ n ∧ w ≠ []) ?_ ?_ l
  · intro x hcond w hw
    rw [chunkWords, if_pos hcond] at hw
    simp at hw
  · intro x hcond ih w hw
    rw [chunkWords, if_neg hcond] at hw
    have hx : x ≠ [] := by
      intro h
      exact hcond (Or.inl (by simp [h]))
    rcases List.mem_cons.mp hw with rfl | hw'
    · refine ⟨by simp, ?_⟩
      intro htake
      have := congrArg List.length htake
      rw [List.length_take] at this
      simp only [List.length_nil] at this
      have hlen : 0 < x.length := List.length_pos.mpr hx
      omega
    · exact ih w hw'

theorem chunkWords_length {α : Type} (n : Nat) (hn : 0 < n) (l : List α) :
    (chunkWords n l).length = (l.length + n - 1) / n := by
  refine chunkWords.induct n
    (fun l => (chunkWords n l).length = (l.length + n - 1) / n) ?_ ?_ l
  · intro x hcond
    rw [chunkWords, if_pos hcond]
    rcases hcond with h | h
    · simp only [List.isEmpty_iff] at h
      subst h
      simp only [List.length_nil, List.length_nil, Nat.zero_add]
      rw [Nat.div_eq_of_lt (by omega)]
    · omega
  · intro x hcond ih
    rw [chunkWords, if_neg hcond]
    rw [List.length_cons, ih, List.length_drop]
    have hx : x ≠ [] := by
      intro h
      exact hcond (Or.inl (by simp [h]))
    have hL : 1 ≤ x.length := List.length_pos.mpr hx
    rcases le_or_lt x.length n with hle | hlt
    · have h1 : x.length - n + n - 1 = n - 1 := by omega
      rw [h1]
      have h2 : (n - 1) / n = 0 := Nat.div_eq_of_lt (by omega)
      have h3 : (x.length + n - 1) / n = 1 :=
        Nat.div_eq_of_lt_le (by omega) (by omega)
      rw [h2, h3]
    · have h2 : x.length - n + n - 1 = x.length - 1 := by omega
      have h3 : x.length + n - 1 = (x.length - 1) + n := by omega
      rw [h2, h3, Nat.add_div_right _ hn]

theorem joinSp_append (a b : List (List Char)) (ha : a ≠ []) (hb : b ≠ []) :
    joinSp (a ++ b) = joinSp a ++ ' ' :: joinSp b := by
  induction a with
  | nil => exact absurd rfl ha
  | cons w a ih =>
    rcases a with _ | ⟨w2, a2⟩
    · rw [List.singleton_append, joinSp_cons _ _ hb]
      simp [joinSp]
    · rw [List.cons_append, joinSp_cons _ _ (by simp)]
      rw [ih (by simp)]
      conv_rhs => rw [joinSp_cons w (w2 :: a2) (by simp)]
      simp

theorem joinSp_map_joinSp (vs : List (List (List Char)))
    (h : ∀ v ∈ vs, v ≠ []) :
    joinSp (vs.map joinSp) = joinSp vs.flatten := by
  induction vs with
  | nil => rfl
  | cons v vs ih =>
    rcases vs with _ | ⟨v2, vs2⟩
    · simp [joinSp]
    · have hflat : (v2 :: vs2).flatten ≠ [] := by
        have hv2 : v2 ≠ [] := h v2 (by simp)
        rcases v2 with _ | ⟨w, v2t⟩
        · exact absurd rfl hv2
        · simp
      rw [List.map_cons, joinSp_cons _ _ (by simp)]
      rw [ih (fun x hx => h x (List.mem_cons_of_mem v hx))]
      conv_rhs => rw [List.flatten_cons]
      rw [joinSp_append v (v2 :: vs2).flatten (h v (by simp)) hflat]

theorem specWordCount_eq_length (s : List Char)
    (h : ∀ w ∈ splitWs s, w ≠ []) :
    specWordCount s = (splitWs s).length := by
  rw [specWordCount]
  rw [List.filter_eq_self.mpr]
  intro w hw
  simpa using h w hw

theorem specWordCount_joinSp (v : List (List Char)) (hv : v ≠ [])
    (hne : ∀ w ∈ v, w ≠ []) (hwf : ∀ w ∈ v, ∀ c ∈ w, isWs c = false) :
    specWordCount (joinSp v) = v.length := by
  rw [specWordCount, splitWs_joinSp v hv hne hwf]
  rw [List.filter_eq_self.mpr]
  intro w hw
  simpa using hne w hw

/-- C1 (amended): for every nonempty text with no leading and no trailing
whitespace (in particular for the whitespace-normalized text the scraper
hands to the chunker) and every chunk size `n > 0`: the guarded chunker
returns the same chunk list as the src/index.js chunker, the number of
chunks is exactly `⌈wordCount/n⌉`, every chunk contains at most `n` words,
and joining the chunks with single spaces reproduces the
whitespace-normalized text.  (On text with leading/trailing whitespace the
claim fails — see the counterexample — because the JS split produces empty
edge pieces.) -/
theorem c1_chunking_correct (text : List Char) (n : Int)
    (h0 : text ≠ []) (h1 : headWs text = false) (h2 : lastWs text = false)
    (hn : 0 < n) :
    Part000.chunkText text n = .ok (IndexJs.chunkText text n)
    ∧ (IndexJs.chunkText text n).length
        = (specWordCount text + n.toNat - 1) / n.toNat
    ∧ (∀ chunk ∈ IndexJs.chunkText text n, specWordCount chunk ≤ n.toNat)
    ∧ joinSp (IndexJs.chunkText text n) = normalizeWs text := by
  have hm : 0 < n.toNat := by omega
  have hwne : ∀ w ∈ splitWs text, w ≠ [] := splitWs_words_ne_nil text h0 h1 h2
  have hwf : ∀ w ∈ splitWs text, ∀ c ∈ w, isWs c = false := splitWs_wsfree text
  refine ⟨?_, ?_, ?_, ?_⟩
  · rw [Part000.chunkText, if_neg (by push_neg; exact ⟨h0, by omega⟩)]
    rfl
  · rw [IndexJs.chunkText, List.length_map, chunkWords_length n.toNat hm,
      specWordCount_eq_length text hwne]
  · intro chunk hchunk
    rw [IndexJs.chunkText] at hchunk
    rcases List.mem_map.mp hchunk with ⟨v, hv, rfl⟩
    have hvprop := chunkWords_mem n.toNat hm (splitWs text) v hv
    have hvelem : ∀ w ∈ v, w ∈ splitWs text := by
      intro w hw
      have hmem : w ∈ (chunkWords n.toNat (splitWs text)).flatten :=
        List.mem_flatten.mpr ⟨v, hv, hw⟩
      rwa [chunkWords_flatten n.toNat (by omega)] at hmem
    rw [specWordCount_joinSp v hvprop.2 (fun w hw => hwne w (hvelem w hw))
      (fun w hw => hwf w (hvelem w hw))]
    exact hvprop.1
  · rw [IndexJs.chunkText]
    rw [joinSp_map_joinSp _
      (fun v hv => (chunkWords_mem n.toNat hm (splitWs text) v hv).2)]
    rw [chunkWords_flatten n.toNat (by omega)]
    rw [joinSp_splitWs, normalizeWs_of_noEdgeWs text h1 h2]

/-- Witness for C1 at the normalized text `"ab cd ef"` with chunk size 2. -/
theorem c1_witness :
    ("ab cd ef".data ≠ [] ∧ headWs "ab cd ef".data = false
      ∧ lastWs "ab cd ef".data = false ∧ (0 : Int) < 2)
    ∧ (Part000.chunkText "ab cd ef".data 2 = .ok (IndexJs.chunkText "ab cd ef".data 2)
      ∧ (IndexJs.chunkText "ab cd ef".data 2).length
          = (specWordCount "ab cd ef".data + (2 : Int).toNat - 1) / (2 : Int).toNat
      ∧ (∀ chunk ∈ IndexJs.chunkText "ab cd ef".data 2,
          specWordCount chunk ≤ (2 : Int).toNat)
      ∧ joinSp (IndexJs.chunkText "ab cd ef".data 2) = normalizeWs "ab cd ef".data) :=
  ⟨⟨by decide, by decide, by decide, by decide⟩,
   c1_chunking_correct "ab cd ef".data 2 (by decide) (by decide) (by decide) (by decide)⟩

/-- C1 counterexample: on the non-empty text `" a"` (leading whitespace)
with `n = 1`, the chunker returns 2 chunks although the word count is 1
(so the chunk count is not `⌈wordCount/n⌉`), and rejoining the chunks with
single spaces yields `" a"`, not the whitespace-normalized text `"a"`. -/
theorem c1_counterexample :
    (" a").data ≠ []
    ∧ (0 : Int) < 1
    ∧ IndexJs.chunkText (" a").data 1 = [[], ['a']]
    ∧ specWordCount (" a").data = 1
    ∧ (IndexJs.chunkText (" a").data 1).length
        ≠ (specWordCount (" a").data + (1 : Int).toNat - 1) / (1 : Int).toNat
    ∧ joinSp (IndexJs.chunkText (" a").data 1) ≠ normalizeWs (" a").data := by
  have hc : IndexJs.chunkText (" a").data 1 = [[], ['a']] := by
    simp [IndexJs.chunkText, splitWs, splitWsAux, isWs, chunkWords, joinSp]
  have hsw : specWordCount (" a").data = 1 := by
    simp [specWordCount, splitWs, splitWsAux, isWs]
  have hnw : normalizeWs (" a").data = ['a'] := by
    simp [normalizeWs, jsReplaceWsRuns, jsTrim, isWs]
  refine ⟨by decide, by decide, hc, hsw, ?_, ?_⟩
  · rw [hc, hsw]
    decide
  · rw [hc, hnw]
    decide
